import Mathlib

/-!
A verification development for the `ToTwiML` derive macro in `src/lib.rs`.

The macro classifies the fields of a struct from their `#[xml(...)]` metadata
and declared types, and generates a `write_xml` procedure that serializes an
instance of the struct as a nested XML element: a start tag carrying the
collected attributes, optional text content, optional nested children, and an
end tag.

The shallow embedding below mirrors the source:
* `RustType`, `Segment`, `PathArgs`, `GenArg` model the fragment of `syn::Type`
  the macro inspects (a path type is a non-empty segment list; every non-path
  type — tuple, reference, array, … — is collapsed into `RustType.other`,
  since the macro never looks inside those).
* `is_optional`, `is_vec_or_option_vec`, `is_custom_type` are the three helper
  functions of the source, translated clause by clause.
* `classifyFields` is the field-processing loop of `to_twiml_derive`
  (lines 23-68 of the source), with `processItem` the body of the inner
  `for nested in list.nested` loop.
* `write_xml` is the behavior of the generated `write_xml` method
  (lines 131-148): the writer is modelled as a state holding the list of
  events written so far plus an optional failure point `failAt` (the writer
  rejects every write once `failAt` events have been written, returning its
  `errCode`), and each generated `writer.write(..)?` is a `wwrite` sequenced
  with `wseq` (the `?` operator: stop at the first error and propagate it).
  Values of nested-record type carry their own `write_xml` capability as a
  function (`InstVal.nestedW`), exactly as the generated code only assumes
  `item.write_xml(writer)?` through the `ToTwiML` trait.
-/

/-! ## Rust type syntax (the fragment of `syn::Type` inspected by the macro) -/

mutual

inductive RustType where
  | path (head : Segment) (tail : List Segment)
  | other

inductive Segment where
  | mk (ident : String) (arguments : PathArgs)

inductive PathArgs where
  | noArgs
  | angle (args : List GenArg)
  | paren

inductive GenArg where
  | tyArg (t : RustType)
  | otherArg

end

def Segment.ident : Segment → String
  | .mk i _ => i

def Segment.arguments : Segment → PathArgs
  | .mk _ a => a

/-- `path.segments.last()`: the final segment of a non-empty segment list. -/
def lastSeg (head : Segment) : List Segment → Segment
  | [] => head
  | s :: rest => lastSeg s rest

/-- Source `is_optional` (lines 155-162): the last path segment is `Option`. -/
def is_optional : RustType → Bool
  | .path head tail => (lastSeg head tail).ident == "Option"
  | .other => false

/-- Source `is_vec_or_option_vec` (lines 164-181): the last segment is `Vec`,
or it is `Option` whose first angle-bracketed argument is a path type whose
last segment is `Vec`. -/
def is_vec_or_option_vec : RustType → Bool
  | .path head tail =>
    let seg := lastSeg head tail
    if seg.ident == "Vec" then true
    else if seg.ident == "Option" then
      match seg.arguments with
      | .angle (GenArg.tyArg (RustType.path ih it) :: _) =>
        (lastSeg ih it).ident == "Vec"
      | _ => false
    else false
  | .other => false

/-- Source `is_custom_type` (lines 183-190): a path type is custom unless its
last segment's name is one of `String`, `i32`, `bool`, `Option`, `Vec`;
every non-path type is custom. -/
def is_custom_type : RustType → Bool
  | .path head tail =>
    let type_name := (lastSeg head tail).ident
    !(type_name == "String" || type_name == "i32" || type_name == "bool" ||
      type_name == "Option" || type_name == "Vec")
  | .other => true

/-! ## Field metadata (the fragment of `syn::Meta` inspected by the macro) -/

/-- `syn::Lit`: only the string case is ever used by the macro; all other
literal kinds (`int`, `boolLit`, `otherLit`) take the silently-skipped path. -/
inductive Lit where
  | str (s : String)
  | int (n : Int)
  | boolLit (b : Bool)
  | otherLit

/-- One item inside `#[xml(...)]`: `syn::NestedMeta`.  `nameValue p l` is
`Meta::NameValue` (e.g. `attribute = "voice"`), `metaPath p` is `Meta::Path`
(e.g. `content`); everything else falls to the source's `_ => {}` arm. -/
inductive NestedMeta where
  | nameValue (path : String) (lit : Lit)
  | metaPath (path : String)
  | otherNested

/-- One attribute on a field.  `xmlList items` is an `#[xml(...)]` attribute
whose `parse_meta` succeeded with `Meta::List`; `otherAttr` collapses every
attribute the macro ignores (non-`xml` path, parse failure, non-list meta). -/
inductive Attr where
  | xmlList (items : List NestedMeta)
  | otherAttr

/-- A named struct field as the macro sees it. -/
structure FieldDecl where
  name : String
  ty : RustType
  attrs : List Attr

/-- The per-field mutable locals of the source loop (lines 26-28). -/
structure PerField where
  xml_name : String
  is_attribute : Bool
  is_content : Bool

/-- The across-field mutable slots of the source loop (lines 18-19). -/
structure Slots where
  text_field : Option (String × RustType)
  nested_field : Option (String × RustType)

/-- The full accumulated classification (lines 18-20). -/
structure ClassResult where
  text_field : Option (String × RustType)
  nested_field : Option (String × RustType)
  attr_fields : List (String × String × RustType)

/-- Body of the inner `for nested in list.nested` loop (lines 36-55):
`attribute = "..."` with a string literal overwrites `xml_name` and sets
`is_attribute` (a non-string literal does nothing); a `content` path sets
`is_content` and immediately assigns the field to the nested or text slot
according to its type's shape. -/
def processItem (fname : String) (fty : RustType) (st : PerField × Slots) :
    NestedMeta → PerField × Slots
  | .nameValue p lit =>
    if p == "attribute" then
      match lit with
      | .str s => ({ st.1 with xml_name := s, is_attribute := true }, st.2)
      | _ => st
    else st
  | .metaPath p =>
    if p == "content" then
      let pf := { st.1 with is_content := true }
      if is_vec_or_option_vec fty || is_custom_type fty then
        (pf, { st.2 with nested_field := some (fname, fty) })
      else
        (pf, { st.2 with text_field := some (fname, fty) })
    else st
  | .otherNested => st

/-- Body of the `for attr in &field.attrs` loop (lines 30-63): only an
`#[xml(...)]` list attribute is processed, item by item. -/
def processAttr (fname : String) (fty : RustType) (st : PerField × Slots) :
    Attr → PerField × Slots
  | .xmlList items => items.foldl (processItem fname fty) st
  | .otherAttr => st

/-- One iteration of the `for field in data.fields.iter()` loop (lines
23-68): the locals start as `(field name, false, false)`, all attributes are
processed, and if `is_attribute` ended up set the triple
`(field name, xml_name, type)` is appended to `attr_fields`. -/
def classStep (acc : ClassResult) (f : FieldDecl) : ClassResult :=
  let st := f.attrs.foldl (processAttr f.name f.ty)
    (⟨f.name, false, false⟩, ⟨acc.text_field, acc.nested_field⟩)
  { text_field := st.2.text_field
    nested_field := st.2.nested_field
    attr_fields := acc.attr_fields ++
      (if st.1.is_attribute then [(f.name, st.1.xml_name, f.ty)] else []) }

/-- The whole field-processing loop of `to_twiml_derive`. -/
def classifyFields (fields : List FieldDecl) : ClassResult :=
  fields.foldl classStep ⟨none, none, []⟩

/-! ### Specification-side views of the metadata, used to state the claims -/

/-- The item is a bare `content` marker. -/
def isContentItem : NestedMeta → Bool
  | .metaPath p => p == "content"
  | _ => false

/-- The item is an `attribute = "..."` option with a string literal. -/
def isAttrStrItem : NestedMeta → Bool
  | .nameValue p (.str _) => p == "attribute"
  | _ => false

/-- The string value of an `attribute = "..."` option, when well-formed. -/
def attrStrValue : NestedMeta → Option String
  | .nameValue p (.str s) => if p == "attribute" then some s else none
  | _ => none

/-- The `#[xml(...)]` items one attribute contributes. -/
def attrItems : Attr → List NestedMeta
  | .xmlList items => items
  | .otherAttr => []

/-- All `#[xml(...)]` items of a field, in source order. -/
def allItems (f : FieldDecl) : List NestedMeta :=
  (f.attrs.map attrItems).flatten

/-- The across-field effect of one (well-formed) `content` marker on a field
of the given name and type: the eligible slot is overwritten. -/
def contentSlot (fname : String) (fty : RustType) (sl : Slots) : Slots :=
  if is_vec_or_option_vec fty || is_custom_type fty then
    { sl with nested_field := some (fname, fty) }
  else
    { sl with text_field := some (fname, fty) }

/-- The field carries a (well-formed) `content` marker. -/
def hasContentMarker (f : FieldDecl) : Bool := (allItems f).any isContentItem

/-- The field carries a well-formed `attribute = "..."` option. -/
def attrMarked (f : FieldDecl) : Bool := (allItems f).any isAttrStrItem

/-- A content-marked field of this type lands in the nested slot. -/
def nestedEligible (f : FieldDecl) : Bool :=
  is_vec_or_option_vec f.ty || is_custom_type f.ty

/-- The markup name of an attribute-marked field: the value of the last
well-formed `attribute` option, defaulting to the field's own name. -/
def xmlNameOf (f : FieldDecl) : String :=
  (((allItems f).filterMap attrStrValue).getLast?).getD f.name

/-- The attribute descriptor contributed by a field, if it is marked. -/
def markedDescr (f : FieldDecl) : Option (String × String × RustType) :=
  if attrMarked f then some (f.name, xmlNameOf f, f.ty) else none

/-! ## The writer and the generated procedure -/

/-- The three event kinds the generated code emits (`xml::writer::XmlEvent`):
a start element carrying its attribute pairs, a characters node, and an end
element. -/
inductive XmlEvent where
  | startElement (name : String) (attrs : List (String × String))
  | characters (s : String)
  | endElement
deriving DecidableEq

/-- A test double for `EventWriter`: the events written so far, plus a fault
model — once `failAt = some k` and `k` events have been written, every further
write fails with the writer's error `errCode`.  `failAt = none` is a writer
that never fails. -/
structure WriterState where
  events : List XmlEvent
  failAt : Option Nat
  errCode : Nat
deriving DecidableEq

/-- The type of one generated `write_xml` body: it consumes the writer state
and returns `Ok(())` or the propagated error, plus the updated writer. -/
abbrev WM := WriterState → Except Nat Unit × WriterState

/-- No write: the empty statement. -/
def wpure : WM := fun st => (Except.ok (), st)

/-- One `writer.write(e)`: appends the event, unless the fault point has been
reached, in which case the writer's error is returned and nothing is
appended. -/
def wwrite (e : XmlEvent) : WM := fun st =>
  match st.failAt with
  | none => (Except.ok (), { st with events := st.events ++ [e] })
  | some k =>
    if st.events.length < k then (Except.ok (), { st with events := st.events ++ [e] })
    else (Except.error st.errCode, st)

/-- Sequencing with `?`: if the first step fails, its error is returned at
once and the second step never runs. -/
def wseq (a b : WM) : WM := fun st =>
  match a st with
  | (Except.ok _, st') => b st'
  | (Except.error e, st') => (Except.error e, st')

/-- The canonical writer program that writes a given list of events one by
one.  `Emits m ts` below says a program `m` is exactly this. -/
def runT : List XmlEvent → WM
  | [] => wpure
  | e :: ts => wseq (wwrite e) (runT ts)

/-- `m` writes exactly the events `ts`, in order, one write per event. -/
def Emits (m : WM) (ts : List XmlEvent) : Prop := m = runT ts

/-- A runtime field value.  `prim` is any scalar rendered by `to_string`
(String, i32, bool, ...); `optNone`/`optSome` is an `Option`; `vec` a `Vec`;
`nestedW w` is a value of a type implementing `ToTwiML`, carrying its own
`write_xml` body `w` — the generated code interacts with nested values only
through `item.write_xml(writer)?`. -/
inductive InstVal where
  | prim (s : String)
  | optNone
  | optSome (v : InstVal)
  | vec (vs : List InstVal)
  | nestedW (w : WM)

/-- An instance of the struct: each field's value, keyed by field name.
Rust's type system guarantees every accessed field exists; the `prim ""`
default is unreachable for instances that match their declaration. -/
def lookupVal : List (String × InstVal) → String → InstVal
  | [], _ => .prim ""
  | (k, v) :: rest, n => if k == n then v else lookupVal rest n

/-- `value.to_string()` / writing a `&String`: only scalar values have a
`Display` rendering in well-typed uses of the derive. -/
def displayString : InstVal → String
  | .prim s => s
  | _ => ""

/-- The items of a `Vec` value (`for item in ...` iterates these). -/
def asVecItems : InstVal → List InstVal
  | .vec vs => vs
  | _ => []

/-- The generated attribute collectors (lines 70-83): for each descriptor in
declaration order, an `Option` field contributes its pair only under
`if let Some(value)`, any other field contributes unconditionally. -/
def collectAttrs (descrs : List (String × String × RustType))
    (vals : List (String × InstVal)) : List (String × String) :=
  descrs.foldl
    (fun acc d =>
      match d with
      | (f, xn, ty) =>
        if is_optional ty then
          match lookupVal vals f with
          | .optSome v => acc ++ [(xn, displayString v)]
          | _ => acc
        else acc ++ [(xn, displayString (lookupVal vals f))])
    []

/-- The generated text-content write (lines 85-100): nothing when no text
field; for an `Option` text field a characters event only under
`if let Some(value)`; otherwise an unconditional characters event. -/
def textWrite (slot : Option (String × RustType))
    (vals : List (String × InstVal)) : WM :=
  match slot with
  | none => wpure
  | some (tf, ty) =>
    if is_optional ty then
      match lookupVal vals tf with
      | .optSome v => wwrite (.characters (displayString v))
      | _ => wpure
    else wwrite (.characters (displayString (lookupVal vals tf)))

/-- The events `textWrite` emits (mirrors `textWrite` case by case). -/
def textTrace (slot : Option (String × RustType))
    (vals : List (String × InstVal)) : List XmlEvent :=
  match slot with
  | none => []
  | some (tf, ty) =>
    if is_optional ty then
      match lookupVal vals tf with
      | .optSome v => [.characters (displayString v)]
      | _ => []
    else [.characters (displayString (lookupVal vals tf))]

/-- One `item.write_xml(writer)?` delegation: the value's own `write_xml`
body.  Only `ToTwiML` values can appear here in well-typed uses; the `wpure`
fallback is unreachable for instances that match their declaration. -/
def writeItem : InstVal → WM
  | .nestedW w => w
  | _ => wpure

/-- `for item in items { item.write_xml(writer)?; }` -/
def writeItems : List InstVal → WM
  | [] => wpure
  | v :: vs => wseq (writeItem v) (writeItems vs)

/-- The generated nested-content write (lines 102-128): nothing when no
nested field; for a `Vec` (or `Option<Vec>`, under `if let Some(items)`)
field, each item is delegated in order; for a custom type, one direct
delegation. -/
def nestedWrite (slot : Option (String × RustType))
    (vals : List (String × InstVal)) : WM :=
  match slot with
  | none => wpure
  | some (nf, ty) =>
    if is_vec_or_option_vec ty then
      if is_optional ty then
        match lookupVal vals nf with
        | .optSome v => writeItems (asVecItems v)
        | _ => wpure
      else writeItems (asVecItems (lookupVal vals nf))
    else writeItem (lookupVal vals nf)

/-- The generated `write_xml` body (lines 131-148): collect the attributes,
write the start element carrying them, then the text write, then the nested
write, then the end element; every write is sequenced with `?`. -/
def write_xml (name : String) (fields : List FieldDecl)
    (vals : List (String × InstVal)) : WM :=
  let cls := classifyFields fields
  wseq (wwrite (.startElement name (collectAttrs cls.attr_fields vals)))
    (wseq (textWrite cls.text_field vals)
      (wseq (nestedWrite cls.nested_field vals)
        (wwrite .endElement)))

/-- A fresh, never-failing writer. -/
def freshWriter : WriterState := ⟨[], none, 0⟩

/-- The events produced by one serialization on a fresh writer. -/
def runEvents (name : String) (fields : List FieldDecl)
    (vals : List (String × InstVal)) : List XmlEvent :=
  (write_xml name fields vals freshWriter).2.events

/-- A value is well-behaved when every `write_xml` body embedded in it writes
some fixed list of events through the writer interface (as every real
`ToTwiML` implementation does — an `EventWriter` can only be appended to). -/
inductive ValWB : InstVal → Prop where
  | prim (s : String) : ValWB (.prim s)
  | optNone : ValWB .optNone
  | optSome {v : InstVal} : ValWB v → ValWB (.optSome v)
  | vec {vs : List InstVal} : (∀ v ∈ vs, ValWB v) → ValWB (.vec vs)
  | nestedW {w : WM} {t : List XmlEvent} : Emits w t → ValWB (.nestedW w)

/-- Every field value of the instance is well-behaved. -/
def ValsWB (vals : List (String × InstVal)) : Prop :=
  ∀ p ∈ vals, ValWB p.2

/-- The attribute pair a descriptor contributes at runtime, if any: an
`Option`-typed descriptor contributes only when the value is present. -/
def attrPair (vals : List (String × InstVal)) :
    String × String × RustType → Option (String × String)
  | (f, xn, ty) =>
    if is_optional ty then
      match lookupVal vals f with
      | .optSome v => some (xn, displayString v)
      | _ => none
    else some (xn, displayString (lookupVal vals f))

/-- The attribute pair an attribute-marked field contributes, if any. -/
def presentPair (vals : List (String × InstVal)) (f : FieldDecl) :
    Option (String × String) :=
  attrPair vals (f.name, xmlNameOf f, f.ty)

/-- An attribute-marked field's value is present: always for a non-`Option`
field, and exactly when the value is `Some` for an `Option` field. -/
def attrPresent (vals : List (String × InstVal)) (f : FieldDecl) : Bool :=
  if is_optional f.ty then
    match lookupVal vals f.name with
    | .optSome _ => true
    | _ => false
  else true

/-! ## Concrete fixtures used by counterexamples and witnesses -/

/-- A bare one-segment path type, e.g. `String`, `i32`, `i64`, `Number`. -/
def tyPath (s : String) : RustType := .path (.mk s .noArgs) []

def stringTy : RustType := tyPath "String"

def i32Ty : RustType := tyPath "i32"

def optTy (inner : RustType) : RustType :=
  .path (.mk "Option" (.angle [.tyArg inner])) []

def vecTy (inner : RustType) : RustType :=
  .path (.mk "Vec" (.angle [.tyArg inner])) []

def numberTy : RustType := tyPath "Number"

/-- A struct with a text-eligible content field and a nested-eligible content
field, in that order: `struct Both { #[xml(content)] msg: String,
#[xml(content)] kids: Vec<Number> }`. -/
def c1Fields : List FieldDecl :=
  [⟨"msg", stringTy, [.xmlList [.metaPath "content"]]⟩,
   ⟨"kids", vecTy numberTy, [.xmlList [.metaPath "content"]]⟩]

/-- The `write_xml` body of a nested `Inner` struct with no fields. -/
def c1InnerW : WM := write_xml "Inner" [] []

def c1Vals : List (String × InstVal) :=
  [("msg", .prim "hi"), ("kids", .vec [.nestedW c1InnerW])]

/-- `struct Say4 { #[xml(attribute = "voice")] voice: Option<String>,
#[xml(attribute = "count")] count: i32 }`. -/
def c4Fields : List FieldDecl :=
  [⟨"voice", optTy stringTy, [.xmlList [.nameValue "attribute" (.str "voice")]]⟩,
   ⟨"count", i32Ty, [.xmlList [.nameValue "attribute" (.str "count")]]⟩]

def c4Vals : List (String × InstVal) :=
  [("voice", .optNone), ("count", .prim "3")]

/-- Three attribute-marked fields with renamed markup names, to watch the
declaration order. -/
def c5Fields : List FieldDecl :=
  [⟨"a", stringTy, [.xmlList [.nameValue "attribute" (.str "a2")]]⟩,
   ⟨"b", optTy stringTy, [.xmlList [.nameValue "attribute" (.str "b2")]]⟩,
   ⟨"c", i32Ty, [.xmlList [.nameValue "attribute" (.str "c2")]]⟩]

def c5Vals : List (String × InstVal) :=
  [("a", .prim "1"), ("b", .optSome (.prim "2")), ("c", .prim "7")]

/-- `struct Number { #[xml(content)] n: String }`. -/
def c6NumFields : List FieldDecl :=
  [⟨"n", stringTy, [.xmlList [.metaPath "content"]]⟩]

def c6Inner1 : WM := write_xml "Number" c6NumFields [("n", .prim "1")]

def c6Inner2 : WM := write_xml "Number" c6NumFields [("n", .prim "2")]

/-- `struct Dial { #[xml(content)] numbers: Vec<Number> }`. -/
def c6Fields : List FieldDecl :=
  [⟨"numbers", vecTy numberTy, [.xmlList [.metaPath "content"]]⟩]

def c6Vals : List (String × InstVal) :=
  [("numbers", .vec [.nestedW c6Inner1, .nestedW c6Inner2])]

/-- `struct Say7 { #[xml(content)] msg: String }`. -/
def c7Fields : List FieldDecl :=
  [⟨"msg", stringTy, [.xmlList [.metaPath "content"]]⟩]

def c7Vals : List (String × InstVal) := [("msg", .prim "hey")]

def c9Fields : List FieldDecl :=
  [⟨"msg", stringTy, [.xmlList [.metaPath "content"]]⟩]

def c9Vals : List (String × InstVal) := [("msg", .prim "ho")]

/-! ## Theorems.  First, the writer-program algebra. -/

theorem wseq_wpure_left (b : WM) : wseq wpure b = b := rfl

theorem wseq_wpure_right (a : WM) : wseq a wpure = a := by
  funext st
  simp only [wseq]
  rcases a st with ⟨r, st'⟩
  cases r <;> rfl

theorem wseq_assoc (a b c : WM) : wseq (wseq a b) c = wseq a (wseq b c) := by
  funext st
  simp only [wseq]
  rcases h : a st with ⟨r, st'⟩
  cases r <;> rfl

theorem runT_append (ta tb : List XmlEvent) :
    runT (ta ++ tb) = wseq (runT ta) (runT tb) := by
  induction ta with
  | nil => simp [runT, wseq_wpure_left]
  | cons e ts ih => simp [runT, ih, wseq_assoc]

theorem emits_wpure : Emits wpure [] := rfl

theorem emits_wwrite (e : XmlEvent) : Emits (wwrite e) [e] :=
  (wseq_wpure_right (wwrite e)).symm

theorem emits_wseq {a b : WM} {ta tb : List XmlEvent}
    (ha : Emits a ta) (hb : Emits b tb) : Emits (wseq a b) (ta ++ tb) := by
  rw [Emits, ha, hb, runT_append]


theorem wseq_eq_of_ok {a : WM} {st st' : WriterState} (b : WM)
    (h : a st = (Except.ok (), st')) : wseq a b st = b st' := by
  simp [wseq, h]

theorem wseq_eq_of_error {a : WM} {st st' : WriterState} {e : Nat} (b : WM)
    (h : a st = (Except.error e, st')) : wseq a b st = (Except.error e, st') := by
  simp [wseq, h]

/-- On a non-faulting writer the canonical program appends all its events and
succeeds. -/
theorem runT_spec_none (ts : List XmlEvent) :
    ∀ (ev : List XmlEvent) (ec : Nat),
      runT ts ⟨ev, none, ec⟩ = (Except.ok (), ⟨ev ++ ts, none, ec⟩) := by
  induction ts with
  | nil => intro ev ec; simp [runT, wpure]
  | cons e ts ih =>
    intro ev ec
    have h1 : wwrite e ⟨ev, none, ec⟩ = (Except.ok (), ⟨ev ++ [e], none, ec⟩) := by
      simp [wwrite]
    rw [show runT (e :: ts) = wseq (wwrite e) (runT ts) from rfl,
      wseq_eq_of_ok _ h1, ih]
    simp

/-- On a faulting writer the canonical program succeeds (appending all its
events) iff every one of its writes lands before the fault point — or it has
nothing to write; otherwise it propagates the writer's error, having appended
exactly the events that fit before the fault point. -/
theorem runT_spec_some (ts : List XmlEvent) :
    ∀ (ev : List XmlEvent) (k ec : Nat),
      runT ts ⟨ev, some k, ec⟩ =
        if ev.length + ts.length ≤ k ∨ ts = [] then
          (Except.ok (), ⟨ev ++ ts, some k, ec⟩)
        else
          (Except.error ec, ⟨ev ++ ts.take (k - ev.length), some k, ec⟩) := by
  induction ts with
  | nil => intro ev k ec; simp [runT, wpure]
  | cons e ts ih =>
    intro ev k ec
    by_cases hlt : ev.length < k
    · have h1 : wwrite e ⟨ev, some k, ec⟩ = (Except.ok (), ⟨ev ++ [e], some k, ec⟩) := by
        simp [wwrite, hlt]
      rw [show runT (e :: ts) = wseq (wwrite e) (runT ts) from rfl,
        wseq_eq_of_ok _ h1, ih]
      by_cases hc : ev.length + (e :: ts).length ≤ k
      · have hc0 : ev.length + 1 + ts.length ≤ k := by
          simp only [List.length_cons] at hc; omega
        have hA : (ev ++ [e]).length + ts.length ≤ k ∨ ts = [] := by
          left
          simpa using hc0
        rw [if_pos hA, if_pos (Or.inl hc)]
        simp
      · have hts : ts ≠ [] := by
          rintro rfl
          simp only [List.length_cons, List.length_nil] at hc
          omega
        have hc0 : ¬ ev.length + 1 + ts.length ≤ k := by
          simp only [List.length_cons] at hc; omega
        have hA : ¬ ((ev ++ [e]).length + ts.length ≤ k ∨ ts = []) := by
          push_neg
          refine ⟨by simpa using hc0, hts⟩
        have hB : ¬ (ev.length + (e :: ts).length ≤ k ∨ (e :: ts) = []) := by
          push_neg
          exact ⟨by omega, by simp⟩
        rw [if_neg hA, if_neg hB]
        obtain ⟨m, hm⟩ : ∃ m, k - ev.length = m + 1 :=
          ⟨k - ev.length - 1, by omega⟩
        rw [hm, List.take_succ_cons]
        have hm' : k - (ev ++ [e]).length = m := by
          simp only [List.length_append, List.length_singleton]
          omega
        rw [hm']
        simp
    · have h1 : wwrite e ⟨ev, some k, ec⟩ = (Except.error ec, ⟨ev, some k, ec⟩) := by
        simp [wwrite, hlt]
      rw [show runT (e :: ts) = wseq (wwrite e) (runT ts) from rfl,
        wseq_eq_of_error _ h1]
      have hB : ¬ (ev.length + (e :: ts).length ≤ k ∨ (e :: ts) = []) := by
        push_neg
        refine ⟨?_, by simp⟩
        simp only [List.length_cons]
        omega
      rw [if_neg hB]
      have h0 : k - ev.length = 0 := by omega
      rw [h0]
      simp

/-- A program that emits `ts` succeeds on a non-faulting writer and appends
exactly `ts`. -/
theorem emits_ok {m : WM} {ts : List XmlEvent} (h : Emits m ts)
    (st : WriterState) (hf : st.failAt = none) :
    m st = (Except.ok (), { st with events := st.events ++ ts }) := by
  rcases st with ⟨ev, fa, ec⟩
  cases hf
  rw [Emits] at h
  rw [h, runT_spec_none]

/-- A program that emits `ts`, run on a fresh faulting writer whose fault
point `k` cuts `ts` short, propagates the writer's error having appended
exactly the first `k` events and nothing after the failed write. -/
theorem emits_fails {m : WM} {ts : List XmlEvent} (h : Emits m ts)
    (k e : Nat) (hk : k < ts.length) :
    m ⟨[], some k, e⟩ = (Except.error e, ⟨ts.take k, some k, e⟩) := by
  rw [Emits] at h
  rw [h, runT_spec_some]
  have hne : ts ≠ [] := by rintro rfl; simp at hk
  rw [if_neg (by push_neg; exact ⟨by simp; omega, hne⟩)]
  simp

/-- A program that emits `ts`, run on a fresh faulting writer whose fault
point is past the end of `ts`, succeeds. -/
theorem emits_ok_late {m : WM} {ts : List XmlEvent} (h : Emits m ts)
    (k e : Nat) (hk : ts.length ≤ k) :
    m ⟨[], some k, e⟩ = (Except.ok (), ⟨ts, some k, e⟩) := by
  rw [Emits] at h
  rw [h, runT_spec_some]
  rw [if_pos (by left; simpa using hk)]
  simp

/-- On a fresh non-faulting writer, a program that emits `ts` produces
exactly `ts`. -/
theorem runEvents_of_emits {name : String} {fields : List FieldDecl}
    {vals : List (String × InstVal)} {ts : List XmlEvent}
    (h : Emits (write_xml name fields vals) ts) :
    runEvents name fields vals = ts := by
  rw [runEvents, freshWriter, emits_ok h ⟨[], none, 0⟩ rfl]
  simp

/-- The text-content write emits exactly `textTrace`. -/
theorem textWrite_emits (slot : Option (String × RustType))
    (vals : List (String × InstVal)) :
    Emits (textWrite slot vals) (textTrace slot vals) := by
  rcases slot with _ | ⟨tf, ty⟩
  · exact emits_wpure
  · by_cases h : is_optional ty
    · rcases hv : lookupVal vals tf with s | _ | v | vs | w <;>
        simp only [textWrite, textTrace, h, if_true, hv] <;>
        first
          | exact emits_wpure
          | exact emits_wwrite _
    · simp only [textWrite, textTrace, h, if_false]
      exact emits_wwrite _

/-- A list of delegations, each emitting its own trace, emits the
concatenation of the traces in order. -/
theorem writeItems_emits {items : List InstVal} {ts : List (List XmlEvent)}
    (h : List.Forall₂ (fun v t => Emits (writeItem v) t) items ts) :
    Emits (writeItems items) ts.flatten := by
  induction h with
  | nil => exact emits_wpure
  | cons hvt _ ih =>
    rw [List.flatten_cons]
    exact emits_wseq hvt ih

/-- Looking a field up in a well-behaved instance yields a well-behaved
value. -/
theorem valWB_lookup {vals : List (String × InstVal)} (h : ValsWB vals)
    (n : String) : ValWB (lookupVal vals n) := by
  induction vals with
  | nil => exact ValWB.prim ""
  | cons p rest ih =>
    rcases p with ⟨k, v⟩
    rw [lookupVal]
    by_cases hk : (k == n) = true
    · rw [if_pos hk]
      exact h (k, v) (List.mem_cons_self _ _)
    · rw [if_neg hk]
      exact ih (fun q hq => h q (List.mem_cons_of_mem _ hq))

/-- The items of a well-behaved value are well-behaved. -/
theorem valWB_items {v : InstVal} (h : ValWB v) :
    ∀ u ∈ asVecItems v, ValWB u := by
  cases h with
  | vec hvs => exact hvs
  | prim s => intro u hu; simp [asVecItems] at hu
  | optNone => intro u hu; simp [asVecItems] at hu
  | optSome _ => intro u hu; simp [asVecItems] at hu
  | nestedW _ => intro u hu; simp [asVecItems] at hu

/-- A single delegation to a well-behaved value emits some trace. -/
theorem writeItem_emits_of_WB {v : InstVal} (h : ValWB v) :
    ∃ t, Emits (writeItem v) t := by
  cases h with
  | nestedW hw => exact ⟨_, hw⟩
  | prim s => exact ⟨[], emits_wpure⟩
  | optNone => exact ⟨[], emits_wpure⟩
  | optSome _ => exact ⟨[], emits_wpure⟩
  | vec _ => exact ⟨[], emits_wpure⟩

/-- Delegations to a list of well-behaved values admit per-item traces. -/
theorem writeItems_traces_of_WB {items : List InstVal}
    (h : ∀ v ∈ items, ValWB v) :
    ∃ ts, List.Forall₂ (fun v t => Emits (writeItem v) t) items ts := by
  induction items with
  | nil => exact ⟨[], List.Forall₂.nil⟩
  | cons v vs ih =>
    obtain ⟨t, ht⟩ := writeItem_emits_of_WB (h v (List.mem_cons_self _ _))
    obtain ⟨ts, hts⟩ := ih (fun u hu => h u (List.mem_cons_of_mem _ hu))
    exact ⟨t :: ts, List.Forall₂.cons ht hts⟩

/-- The nested-content write of a well-behaved instance emits some trace. -/
theorem nestedWrite_emits_of_WB (slot : Option (String × RustType))
    {vals : List (String × InstVal)} (h : ValsWB vals) :
    ∃ t, Emits (nestedWrite slot vals) t := by
  rcases slot with _ | ⟨nf, ty⟩
  · exact ⟨[], emits_wpure⟩
  · rw [nestedWrite]
    by_cases hvec : is_vec_or_option_vec ty
    · rw [if_pos hvec]
      by_cases hopt : is_optional ty
      · rw [if_pos hopt]
        rcases hv : lookupVal vals nf with s | _ | v | vs | w
        · exact ⟨[], emits_wpure⟩
        · exact ⟨[], emits_wpure⟩
        · have hwb : ValWB v := by
            have := valWB_lookup h nf
            rw [hv] at this
            cases this with
            | optSome hv' => exact hv'
          obtain ⟨ts, hts⟩ := writeItems_traces_of_WB (valWB_items hwb)
          exact ⟨ts.flatten, writeItems_emits hts⟩
        · exact ⟨[], emits_wpure⟩
        · exact ⟨[], emits_wpure⟩
      · rw [if_neg hopt]
        have hwb := valWB_lookup h nf
        obtain ⟨ts, hts⟩ := writeItems_traces_of_WB (valWB_items hwb)
        exact ⟨ts.flatten, writeItems_emits hts⟩
    · rw [if_neg hvec]
      exact writeItem_emits_of_WB (valWB_lookup h nf)

/-- The generated body, unfolded: the start element, the text write, the
nested write, the end element, in sequence. -/
theorem write_xml_eq (name : String) (fields : List FieldDecl)
    (vals : List (String × InstVal)) :
    write_xml name fields vals =
      wseq (wwrite (.startElement name
          (collectAttrs (classifyFields fields).attr_fields vals)))
        (wseq (textWrite (classifyFields fields).text_field vals)
          (wseq (nestedWrite (classifyFields fields).nested_field vals)
            (wwrite .endElement))) := rfl

/-- Whenever the nested write emits `tn`, the whole generated body emits the
start element, the text trace, `tn`, and the end element, in that order. -/
theorem write_xml_emits {name : String} {fields : List FieldDecl}
    {vals : List (String × InstVal)} {tn : List XmlEvent}
    (hn : Emits (nestedWrite (classifyFields fields).nested_field vals) tn) :
    Emits (write_xml name fields vals)
      (.startElement name (collectAttrs (classifyFields fields).attr_fields vals)
        :: (textTrace (classifyFields fields).text_field vals ++ (tn ++ [.endElement]))) := by
  rw [write_xml_eq]
  exact emits_wseq (emits_wwrite _)
    (emits_wseq (textWrite_emits _ _) (emits_wseq hn (emits_wwrite _)))

/-- A well-behaved instance makes the whole generated body emit some event
list of the canonical shape. -/
theorem write_xml_emits_of_WB (name : String) (fields : List FieldDecl)
    {vals : List (String × InstVal)} (h : ValsWB vals) :
    ∃ tn, Emits (nestedWrite (classifyFields fields).nested_field vals) tn ∧
      Emits (write_xml name fields vals)
        (.startElement name (collectAttrs (classifyFields fields).attr_fields vals)
          :: (textTrace (classifyFields fields).text_field vals ++ (tn ++ [.endElement]))) := by
  obtain ⟨tn, hn⟩ := nestedWrite_emits_of_WB (classifyFields fields).nested_field h
  exact ⟨tn, hn, write_xml_emits hn⟩

/-! ## Classification lemmas -/

theorem getLast?_getD_cons {α : Type} (m : List α) :
    ∀ a d : α, ((a :: m).getLast?).getD d = (m.getLast?).getD a := by
  induction m with
  | nil => intro a d; simp [List.getLast?_singleton]
  | cons b t ih =>
    intro a d
    rw [List.getLast?_cons_cons]
    rcases ht : (b :: t).getLast? with _ | y
    · simp [List.getLast?] at ht
    · simp

theorem isAttrStrItem_eq (it : NestedMeta) :
    isAttrStrItem it = (attrStrValue it).isSome := by
  rcases it with ⟨p, lit⟩ | p | _
  · cases lit <;> simp [isAttrStrItem, attrStrValue] <;> split <;> simp_all
  · simp [isAttrStrItem, attrStrValue]
  · simp [isAttrStrItem, attrStrValue]

/-- One item touches the slots exactly when it is a `content` marker, and
then it overwrites the eligible slot. -/
theorem processItem_slots (fname : String) (fty : RustType)
    (st : PerField × Slots) (it : NestedMeta) :
    (processItem fname fty st it).2 =
      if isContentItem it then contentSlot fname fty st.2 else st.2 := by
  rcases it with ⟨p, lit⟩ | p | _
  · cases lit <;> simp [processItem, isContentItem] <;> split <;> rfl
  · by_cases hp : (p == "content") = true
    · simp only [processItem, isContentItem, hp, if_true, contentSlot]
      split <;> rfl
    · simp [processItem, isContentItem, hp]
  · rfl

/-- One item's effect on the per-field locals: an `attribute = "..."` string
option overwrites `xml_name` and sets `is_attribute`; a `content` marker sets
`is_content`; everything else changes nothing. -/
theorem processItem_pf (fname : String) (fty : RustType)
    (st : PerField × Slots) (it : NestedMeta) :
    (processItem fname fty st it).1 =
      ⟨(attrStrValue it).getD st.1.xml_name,
       st.1.is_attribute || isAttrStrItem it,
       st.1.is_content || isContentItem it⟩ := by
  rcases it with ⟨p, lit⟩ | p | _
  · by_cases hp : (p == "attribute") = true
    · cases lit <;>
        simp [processItem, attrStrValue, isAttrStrItem, isContentItem, hp]
    · cases lit <;>
        simp [processItem, attrStrValue, isAttrStrItem, isContentItem, hp]
  · by_cases hp : (p == "content") = true
    · simp only [processItem, attrStrValue, isAttrStrItem, isContentItem, hp, if_true]
      split <;> simp
    · simp only [processItem, attrStrValue, isAttrStrItem, isContentItem, hp, if_false]
      simp
  · simp [processItem, attrStrValue, isAttrStrItem, isContentItem]

theorem foldl_processItem_pf (fname : String) (fty : RustType)
    (items : List NestedMeta) :
    ∀ st : PerField × Slots,
      (items.foldl (processItem fname fty) st).1 =
        ⟨((items.filterMap attrStrValue).getLast?).getD st.1.xml_name,
         st.1.is_attribute || items.any isAttrStrItem,
         st.1.is_content || items.any isContentItem⟩ := by
  induction items with
  | nil => intro st; simp
  | cons it its ih =>
    intro st
    rw [List.foldl_cons, ih, processItem_pf]
    simp only [PerField.mk.injEq]
    refine ⟨?_, by simp [List.any_cons, Bool.or_assoc], by simp [List.any_cons, Bool.or_assoc]⟩
    rcases h : attrStrValue it with _ | s
    · rw [List.filterMap_cons_none h]
      simp
    · rw [List.filterMap_cons_some h, getLast?_getD_cons]
      simp

theorem contentSlot_idem (fname : String) (fty : RustType) (sl : Slots) :
    contentSlot fname fty (contentSlot fname fty sl) =
      contentSlot fname fty sl := by
  by_cases h : (is_vec_or_option_vec fty || is_custom_type fty) = true <;>
    simp [contentSlot, h]

theorem foldl_processItem_slots (fname : String) (fty : RustType)
    (items : List NestedMeta) :
    ∀ st : PerField × Slots,
      (items.foldl (processItem fname fty) st).2 =
        if items.any isContentItem then contentSlot fname fty st.2 else st.2 := by
  induction items with
  | nil => intro st; simp
  | cons it its ih =>
    intro st
    rw [List.foldl_cons, ih, processItem_slots]
    by_cases hc : isContentItem it = true <;>
      by_cases ha : its.any isContentItem = true <;>
      simp [hc, ha, List.any_cons, contentSlot_idem]

/-- Processing the attribute list one attribute at a time is processing the
flattened `#[xml(...)]` item list one item at a time. -/
theorem foldl_processAttr_eq (fname : String) (fty : RustType)
    (attrs : List Attr) :
    ∀ st : PerField × Slots,
      attrs.foldl (processAttr fname fty) st =
        ((attrs.map attrItems).flatten).foldl (processItem fname fty) st := by
  induction attrs with
  | nil => intro st; rfl
  | cons a rest ih =>
    intro st
    rcases a with items | _
    · rw [List.foldl_cons, List.map_cons, List.flatten_cons, List.foldl_append, ih]
      rfl
    · rw [List.foldl_cons, List.map_cons, List.flatten_cons, ih]
      rfl

theorem contentSlot_eq (f : FieldDecl) (sl : Slots) :
    contentSlot f.name f.ty sl =
      if nestedEligible f then { sl with nested_field := some (f.name, f.ty) }
      else { sl with text_field := some (f.name, f.ty) } := rfl

/-- One loop iteration, described declaratively: the slot of the eligible
kind is overwritten iff the field carries a `content` marker, and the
field's attribute descriptor (if marked) is appended. -/
theorem classStep_eq (acc : ClassResult) (f : FieldDecl) :
    classStep acc f =
      { text_field :=
          if hasContentMarker f && !nestedEligible f then some (f.name, f.ty)
          else acc.text_field
        nested_field :=
          if hasContentMarker f && nestedEligible f then some (f.name, f.ty)
          else acc.nested_field
        attr_fields := acc.attr_fields ++ (markedDescr f).toList } := by
  simp only [classStep]
  rw [foldl_processAttr_eq]
  rw [show (f.attrs.map attrItems).flatten = allItems f from rfl]
  rw [foldl_processItem_pf, foldl_processItem_slots]
  simp only [ClassResult.mk.injEq]
  refine ⟨?_, ?_, ?_⟩
  · by_cases h1 : hasContentMarker f
    · rw [show (allItems f).any isContentItem = hasContentMarker f from rfl, h1,
        if_pos rfl, contentSlot_eq]
      by_cases h2 : nestedEligible f <;> simp [h1, h2]
    · rw [show (allItems f).any isContentItem = hasContentMarker f from rfl]
      simp [h1]
  · by_cases h1 : hasContentMarker f
    · rw [show (allItems f).any isContentItem = hasContentMarker f from rfl, h1,
        if_pos rfl, contentSlot_eq]
      by_cases h2 : nestedEligible f <;> simp [h1, h2]
    · rw [show (allItems f).any isContentItem = hasContentMarker f from rfl]
      simp [h1]
  · by_cases hm : attrMarked f
    · rw [show (allItems f).any isAttrStrItem = attrMarked f from rfl, hm]
      simp [markedDescr, hm, xmlNameOf]
    · rw [show (allItems f).any isAttrStrItem = attrMarked f from rfl]
      simp [markedDescr, hm]

/-- The attribute-descriptor list of the classification is exactly the
attribute-marked fields, in declaration order, each with its markup name. -/
theorem classify_attr_fold (fields : List FieldDecl) :
    ∀ acc : ClassResult,
      (fields.foldl classStep acc).attr_fields =
        acc.attr_fields ++ fields.filterMap markedDescr := by
  induction fields with
  | nil => intro acc; simp
  | cons f fs ih =>
    intro acc
    rw [List.foldl_cons, ih, classStep_eq]
    rcases h : markedDescr f with _ | d <;>
      simp [h, List.filterMap_cons, List.append_assoc]

theorem classify_attr_fields (fields : List FieldDecl) :
    (classifyFields fields).attr_fields = fields.filterMap markedDescr := by
  rw [classifyFields, classify_attr_fold]
  rfl

theorem classify_slots_fold (fields : List FieldDecl) :
    ∀ acc : ClassResult,
      (fields.foldl classStep acc).text_field =
        fields.foldl
          (fun s f =>
            if hasContentMarker f && !nestedEligible f then some (f.name, f.ty) else s)
          acc.text_field ∧
      (fields.foldl classStep acc).nested_field =
        fields.foldl
          (fun s f =>
            if hasContentMarker f && nestedEligible f then some (f.name, f.ty) else s)
          acc.nested_field := by
  induction fields with
  | nil => intro acc; exact ⟨rfl, rfl⟩
  | cons f fs ih =>
    intro acc
    rw [List.foldl_cons, List.foldl_cons, List.foldl_cons]
    obtain ⟨iht, ihn⟩ := ih (classStep acc f)
    rw [iht, ihn, classStep_eq]
    exact ⟨rfl, rfl⟩

/-- The generic last-write-wins fold: overwriting an optional slot whenever
the predicate holds computes the last matching element. -/
theorem foldl_last_wins {α β : Type} (p : α → Bool) (g : α → β)
    (l : List α) :
    ∀ init : Option β,
      l.foldl (fun acc x => if p x then some (g x) else acc) init =
        ((l.filter p).getLast?).elim init (fun x => some (g x)) := by
  induction l with
  | nil => intro init; simp
  | cons x l ih =>
    intro init
    rw [List.foldl_cons]
    by_cases hp : p x = true
    · rw [if_pos hp, ih, List.filter_cons_of_pos hp]
      rcases hl : (l.filter p).getLast? with _ | y
      · rcases hfl : l.filter p with _ | ⟨z, zs⟩
        · simp [List.getLast?_singleton]
        · rw [hfl] at hl
          simp [List.getLast?] at hl
      · rw [show (x :: l.filter p).getLast? = some y from by
          rcases hfl : l.filter p with _ | ⟨z, zs⟩
          · rw [hfl] at hl; simp [List.getLast?] at hl
          · rw [hfl] at hl
            rw [List.getLast?_cons_cons, hl]]
        simp
    · rw [if_neg hp, ih, List.filter_cons_of_neg hp]

/-! ## Attribute-collection lemmas -/

theorem collect_step_eq (vals : List (String × InstVal))
    (acc : List (String × String)) (d : String × String × RustType) :
    (match d with
      | (f, xn, ty) =>
        if is_optional ty then
          match lookupVal vals f with
          | .optSome v => acc ++ [(xn, displayString v)]
          | _ => acc
        else acc ++ [(xn, displayString (lookupVal vals f))]) =
      acc ++ (attrPair vals d).toList := by
  rcases d with ⟨f, xn, ty⟩
  rw [attrPair]
  dsimp only
  by_cases h : is_optional ty = true
  · rw [if_pos h, if_pos h]
    rcases lookupVal vals f with s | _ | v | vs | w <;> simp
  · rw [if_neg h, if_neg h]
    simp

theorem collectAttrs_fold (vals : List (String × InstVal))
    (descrs : List (String × String × RustType)) :
    ∀ acc : List (String × String),
      descrs.foldl
        (fun acc d =>
          match d with
          | (f, xn, ty) =>
            if is_optional ty then
              match lookupVal vals f with
              | .optSome v => acc ++ [(xn, displayString v)]
              | _ => acc
            else acc ++ [(xn, displayString (lookupVal vals f))])
        acc =
      acc ++ descrs.filterMap (attrPair vals) := by
  induction descrs with
  | nil => intro acc; simp
  | cons d ds ih =>
    intro acc
    rw [List.foldl_cons, ih, collect_step_eq]
    rcases h : attrPair vals d with _ | q <;>
      simp [h, List.filterMap_cons, List.append_assoc]

/-- The collected attribute list is the presence-filtered descriptor list,
in order. -/
theorem collectAttrs_eq (descrs : List (String × String × RustType))
    (vals : List (String × InstVal)) :
    collectAttrs descrs vals = descrs.filterMap (attrPair vals) := by
  rw [collectAttrs, collectAttrs_fold]
  rfl

/-- Composing classification with collection: the attributes on the start
element are the attribute-marked fields, in declaration order, filtered by
presence of their value. -/
theorem marked_then_present (fields : List FieldDecl)
    (vals : List (String × InstVal)) :
    (fields.filterMap markedDescr).filterMap (attrPair vals) =
      (fields.filter attrMarked).filterMap (presentPair vals) := by
  induction fields with
  | nil => rfl
  | cons f fs ih =>
    by_cases hm : attrMarked f = true
    · have hd : markedDescr f = some (f.name, xmlNameOf f, f.ty) := by
        rw [markedDescr, if_pos hm]
      rw [List.filterMap_cons_some hd, List.filter_cons_of_pos hm]
      rw [List.filterMap_cons, List.filterMap_cons]
      rw [show presentPair vals f = attrPair vals (f.name, xmlNameOf f, f.ty) from rfl]
      rcases h : attrPair vals (f.name, xmlNameOf f, f.ty) with _ | q <;> simp [h, ih]
    · have hd : markedDescr f = none := by
        rw [markedDescr, if_neg hm]
      rw [List.filterMap_cons_none hd, List.filter_cons_of_neg hm, ih]

theorem presentPair_isSome (vals : List (String × InstVal)) (f : FieldDecl) :
    (presentPair vals f).isSome = attrPresent vals f := by
  rw [presentPair, attrPair, attrPresent]
  by_cases h : is_optional f.ty = true
  · rw [if_pos h, if_pos h]
    rcases lookupVal vals f.name with s | _ | v | vs | w <;> simp
  · rw [if_neg h, if_neg h]
    simp

theorem valsWB_nil : ValsWB [] := fun p hp => absurd hp (List.not_mem_nil p)

theorem valsWB_cons {k : String} {v : InstVal} {rest : List (String × InstVal)}
    (hv : ValWB v) (hr : ValsWB rest) : ValsWB ((k, v) :: rest) := by
  intro p hp
  rcases List.mem_cons.mp hp with rfl | hp'
  · exact hv
  · exact hr p hp'

/-! ## The claims -/

/-- C2: classification resolves each content slot independently by
last-write-wins: the nested slot holds the last content-marked
nested-eligible field in declaration order, and the text slot holds the last
content-marked text-eligible field in declaration order. -/
theorem content_slots_last_write_wins (fields : List FieldDecl) :
    (classifyFields fields).nested_field =
      ((fields.filter (fun f => hasContentMarker f && nestedEligible f)).getLast?).map
        (fun f => (f.name, f.ty)) ∧
    (classifyFields fields).text_field =
      ((fields.filter (fun f => hasContentMarker f && !nestedEligible f)).getLast?).map
        (fun f => (f.name, f.ty)) := by
  obtain ⟨ht, hn⟩ := classify_slots_fold fields ⟨none, none, []⟩
  constructor
  · rw [classifyFields, hn,
      foldl_last_wins (fun f => hasContentMarker f && nestedEligible f)
        (fun f : FieldDecl => (f.name, f.ty)) fields]
    rcases h : (fields.filter (fun f => hasContentMarker f && nestedEligible f)).getLast?
      with _ | f <;> simp
  · rw [classifyFields, ht,
      foldl_last_wins (fun f => hasContentMarker f && !nestedEligible f)
        (fun f : FieldDecl => (f.name, f.ty)) fields]
    rcases h : (fields.filter (fun f => hasContentMarker f && !nestedEligible f)).getLast?
      with _ | f <;> simp

/-- C3 counterexample: `i64` is a signed-integer type name, yet the shape
inspector does NOT recognize it as primitive — it classifies it as a custom
(nested-record) type, because the source's fixed set contains only `i32`
among the integer names. -/
theorem i64_not_primitive : is_custom_type (tyPath "i64") ≠ false := by
  decide

/-- C3 (amended): the shape inspector classifies a path type as a custom
(nested-record) type exactly when its last segment's name is outside the
fixed set `String`, `i32`, `bool`, `Option`, `Vec` — so among the
signed-integer type names only `i32` is recognized as primitive — and every
non-path type is custom. -/
theorem is_custom_type_iff (head : Segment) (tail : List Segment) :
    (is_custom_type (.path head tail) = true ↔
      ¬ ((lastSeg head tail).ident = "String" ∨ (lastSeg head tail).ident = "i32" ∨
         (lastSeg head tail).ident = "bool" ∨ (lastSeg head tail).ident = "Option" ∨
         (lastSeg head tail).ident = "Vec")) ∧
    is_custom_type .other = true := by
  refine ⟨?_, rfl⟩
  rw [is_custom_type]
  simp [not_or, and_assoc]

/-- C8: an `attribute` metadata option whose literal is not a string is
silently skipped: processing it changes nothing at all (in particular the
field is not added to the attribute list because of it), and classification
of a field carrying only such an option completes without any effect — the
embedding is a total function, so no generation-time error is possible. -/
theorem malformed_attribute_option_skipped (fname : String) (fty : RustType)
    (st : PerField × Slots) (lit : Lit) (h : ∀ s, lit ≠ Lit.str s) :
    processItem fname fty st (.nameValue "attribute" lit) = st ∧
    classifyFields [⟨fname, fty, [.xmlList [.nameValue "attribute" lit]]⟩] =
      ⟨none, none, []⟩ := by
  constructor
  · cases lit with
    | str s => exact absurd rfl (h s)
    | int n => rfl
    | boolLit b => rfl
    | otherLit => rfl
  · cases lit with
    | str s => exact absurd rfl (h s)
    | int n => rfl
    | boolLit b => rfl
    | otherLit => rfl

theorem malformed_attribute_option_skipped_witness :
    processItem "foo" stringTy (⟨"foo", false, false⟩, ⟨none, none⟩)
        (.nameValue "attribute" (.int 5)) =
      (⟨"foo", false, false⟩, ⟨none, none⟩) ∧
    classifyFields [⟨"foo", stringTy, [.xmlList [.nameValue "attribute" (.int 5)]]⟩] =
      ⟨none, none, []⟩ :=
  malformed_attribute_option_skipped "foo" stringTy
    (⟨"foo", false, false⟩, ⟨none, none⟩) (.int 5) (fun s h => Lit.noConfusion h)

/-- C10: a content-marked field whose declared type is not syntactically a
type path (tuple, reference, array, ...) is classified as a custom
(nested-record) type, is assigned to the nested slot, and is serialized by a
single direct delegation rather than as text. -/
theorem non_path_type_goes_nested (fname : String) (pf : PerField) (sl : Slots)
    (vals : List (String × InstVal)) (nm : String) :
    is_custom_type .other = true ∧
    processItem fname .other (pf, sl) (.metaPath "content") =
      ({ pf with is_content := true },
       { sl with nested_field := some (fname, .other) }) ∧
    nestedWrite (some (nm, .other)) vals = writeItem (lookupVal vals nm) := by
  exact ⟨rfl, rfl, rfl⟩

/-- C1 counterexample: on a record whose classification holds BOTH a text
field and a nested field, the generated body emits the text content AND the
nested content (the characters event is followed by the nested child's
element), contradicting the claim that nested content is written only when
no text field exists. -/
theorem text_and_nested_both_emitted :
    (classifyFields c1Fields).text_field = some ("msg", stringTy) ∧
    (classifyFields c1Fields).nested_field = some ("kids", vecTy numberTy) ∧
    runEvents "Both" c1Fields c1Vals =
      [.startElement "Both" [], .characters "hi",
       .startElement "Inner" [], .endElement, .endElement] := by
  exact ⟨rfl, rfl, rfl⟩

/-- C1 (amended): whenever the classification holds both a text field and a
nested field — whatever their shapes — the generated body emits BOTH, in a
fixed order: start tag, the text-content events, then the nested-content
events, then the end tag.  Nested content is emitted whenever a nested field
exists, regardless of the presence (or shape, or value) of the text field,
because the generated code splices the two writes back-to-back with no
else. -/
theorem text_then_nested_when_both (name : String) (fields : List FieldDecl)
    (vals : List (String × InstVal)) (tf nf : String) (tty nty : RustType)
    (tn : List XmlEvent)
    (hct : (classifyFields fields).text_field = some (tf, tty))
    (hcn : (classifyFields fields).nested_field = some (nf, nty))
    (hn : Emits (nestedWrite (some (nf, nty)) vals) tn) :
    runEvents name fields vals =
      .startElement name (collectAttrs (classifyFields fields).attr_fields vals)
        :: (textTrace (some (tf, tty)) vals ++ (tn ++ [.endElement])) := by
  have hn' : Emits (nestedWrite (classifyFields fields).nested_field vals) tn := by
    rw [hcn]
    exact hn
  have htt : textTrace (classifyFields fields).text_field vals =
      textTrace (some (tf, tty)) vals := by
    rw [hct]
  rw [runEvents_of_emits (write_xml_emits hn'), htt]

theorem text_then_nested_when_both_witness :
    runEvents "Both" c1Fields c1Vals =
      .startElement "Both" (collectAttrs (classifyFields c1Fields).attr_fields c1Vals)
        :: (textTrace (some ("msg", stringTy)) c1Vals ++
            ([.startElement "Inner" [], .endElement] ++ [.endElement])) := by
  have hinner : Emits (writeItem (.nestedW c1InnerW))
      [.startElement "Inner" [], .endElement] :=
    @write_xml_emits "Inner" [] [] [] emits_wpure
  have hn : Emits (nestedWrite (some ("kids", vecTy numberTy)) c1Vals)
      [.startElement "Inner" [], .endElement] := by
    rw [show nestedWrite (some ("kids", vecTy numberTy)) c1Vals =
        writeItems [.nestedW c1InnerW] from rfl]
    exact writeItems_emits (List.Forall₂.cons hinner List.Forall₂.nil)
  exact text_then_nested_when_both "Both" c1Fields c1Vals "msg" "kids"
    stringTy (vecTy numberTy) [.startElement "Inner" [], .endElement]
    rfl rfl hn

/-- C4: the start element carries one attribute pair per attribute-marked
field whose value is present — for an `Option`-typed attribute field the
pair is included only when the value is `Some`, for any other attribute
field it is always included — so the number of attribute pairs equals the
number of attribute-marked fields with a present value. -/
theorem attr_count_eq_present (name : String) (fields : List FieldDecl)
    (vals : List (String × InstVal)) (h : ValsWB vals) :
    (runEvents name fields vals).head? =
      some (.startElement name
        (collectAttrs (classifyFields fields).attr_fields vals)) ∧
    (collectAttrs (classifyFields fields).attr_fields vals).length =
      (fields.filter attrMarked).countP (fun f => attrPresent vals f) := by
  constructor
  · obtain ⟨tn, hn, hw⟩ := write_xml_emits_of_WB name fields h
    rw [runEvents_of_emits hw]
    rfl
  · rw [collectAttrs_eq, classify_attr_fields, marked_then_present,
      List.length_filterMap_eq_countP]
    simp only [presentPair_isSome]

theorem attr_count_eq_present_witness :
    (runEvents "Say" c4Fields c4Vals).head? =
      some (.startElement "Say"
        (collectAttrs (classifyFields c4Fields).attr_fields c4Vals)) ∧
    (collectAttrs (classifyFields c4Fields).attr_fields c4Vals).length =
      (c4Fields.filter attrMarked).countP (fun f => attrPresent c4Vals f) :=
  attr_count_eq_present "Say" c4Fields c4Vals
    (valsWB_cons ValWB.optNone (valsWB_cons (ValWB.prim "3") valsWB_nil))

/-- C5: the attribute pairs carried on the emitted start element are exactly
the pairs of the attribute-marked fields, in declaration order, filtered by
presence of their value — so attribute order equals declaration order among
attribute-marked fields. -/
theorem attr_order_is_decl_order (name : String) (fields : List FieldDecl)
    (vals : List (String × InstVal)) (h : ValsWB vals) :
    (runEvents name fields vals).head? =
      some (.startElement name
        ((fields.filter attrMarked).filterMap (presentPair vals))) := by
  obtain ⟨tn, hn, hw⟩ := write_xml_emits_of_WB name fields h
  rw [runEvents_of_emits hw, List.head?_cons,
    collectAttrs_eq, classify_attr_fields, marked_then_present]

theorem attr_order_is_decl_order_witness :
    (runEvents "X" c5Fields c5Vals).head? =
      some (.startElement "X"
        ((c5Fields.filter attrMarked).filterMap (presentPair c5Vals))) :=
  attr_order_is_decl_order "X" c5Fields c5Vals
    (valsWB_cons (ValWB.prim "1")
      (valsWB_cons (ValWB.optSome (ValWB.prim "2"))
        (valsWB_cons (ValWB.prim "7") valsWB_nil)))

/-- C6: a record whose nested field has (non-optional) sequence shape and
holds `n` items emits, between the start and end tags, exactly the `n`
child trees produced by delegating to each item, in sequence order. -/
theorem sequence_emits_n_children (name : String) (fields : List FieldDecl)
    (vals : List (String × InstVal)) (nf : String) (nty : RustType)
    (items : List InstVal) (ts : List (List XmlEvent))
    (hcn : (classifyFields fields).nested_field = some (nf, nty))
    (hct : (classifyFields fields).text_field = none)
    (hvec : is_vec_or_option_vec nty = true)
    (hnopt : is_optional nty = false)
    (hval : lookupVal vals nf = .vec items)
    (hts : List.Forall₂ (fun v t => Emits (writeItem v) t) items ts) :
    runEvents name fields vals =
      .startElement name (collectAttrs (classifyFields fields).attr_fields vals)
        :: (ts.flatten ++ [.endElement]) ∧
    ts.length = items.length := by
  have hn : Emits (nestedWrite (classifyFields fields).nested_field vals) ts.flatten := by
    rw [hcn, nestedWrite]
    rw [if_pos hvec, if_neg (by rw [hnopt]; exact Bool.false_ne_true), hval]
    exact writeItems_emits hts
  refine ⟨?_, (List.Forall₂.length_eq hts).symm⟩
  rw [runEvents_of_emits (write_xml_emits hn)]
  rw [show textTrace (classifyFields fields).text_field vals = [] from by
    rw [hct]; rfl]
  simp

theorem sequence_emits_n_children_witness :
    (runEvents "Dial" c6Fields c6Vals =
      .startElement "Dial" (collectAttrs (classifyFields c6Fields).attr_fields c6Vals)
        :: (([[.startElement "Number" [], .characters "1", .endElement],
              [.startElement "Number" [], .characters "2", .endElement]] :
              List (List XmlEvent)).flatten ++ [.endElement]) ∧
    ([[.startElement "Number" [], .characters "1", .endElement],
      [.startElement "Number" [], .characters "2", .endElement]] :
      List (List XmlEvent)).length =
      ([.nestedW c6Inner1, .nestedW c6Inner2] : List InstVal).length) := by
  have h1 : Emits (writeItem (.nestedW c6Inner1))
      [.startElement "Number" [], .characters "1", .endElement] :=
    @write_xml_emits "Number" c6NumFields [("n", .prim "1")] [] emits_wpure
  have h2 : Emits (writeItem (.nestedW c6Inner2))
      [.startElement "Number" [], .characters "2", .endElement] :=
    @write_xml_emits "Number" c6NumFields [("n", .prim "2")] [] emits_wpure
  exact sequence_emits_n_children "Dial" c6Fields c6Vals "numbers"
    (vecTy numberTy) [.nestedW c6Inner1, .nestedW c6Inner2]
    [[.startElement "Number" [], .characters "1", .endElement],
     [.startElement "Number" [], .characters "2", .endElement]]
    rfl rfl rfl rfl rfl
    (List.Forall₂.cons h1 (List.Forall₂.cons h2 List.Forall₂.nil))

/-- C7: against a writer that never fails, the generated body succeeds and
appends exactly its event sequence; against a writer that starts failing at
write `k` (with `k` before the end of the sequence), the body propagates the
writer's error and the writer holds exactly the first `k` events — no event
is emitted after the failed write; a fault point past the end leaves the run
successful.  So the body returns `Ok(())` exactly when every write
succeeded. -/
theorem write_failure_aborts (name : String) (fields : List FieldDecl)
    (vals : List (String × InstVal)) (h : ValsWB vals) :
    (∀ st : WriterState, st.failAt = none →
      write_xml name fields vals st =
        (Except.ok (), { st with events := st.events ++ runEvents name fields vals })) ∧
    (∀ k e : Nat, k < (runEvents name fields vals).length →
      write_xml name fields vals ⟨[], some k, e⟩ =
        (Except.error e, ⟨(runEvents name fields vals).take k, some k, e⟩)) ∧
    (∀ k e : Nat, (runEvents name fields vals).length ≤ k →
      write_xml name fields vals ⟨[], some k, e⟩ =
        (Except.ok (), ⟨runEvents name fields vals, some k, e⟩)) := by
  obtain ⟨tn, hn, hw⟩ := write_xml_emits_of_WB name fields h
  rw [runEvents_of_emits hw]
  exact ⟨fun st hf => emits_ok hw st hf,
    fun k e hk => emits_fails hw k e hk,
    fun k e hk => emits_ok_late hw k e hk⟩

theorem write_failure_aborts_witness :
    write_xml "Say7" c7Fields c7Vals ⟨[], some 1, 9⟩ =
      (Except.error 9, ⟨[.startElement "Say7" []], some 1, 9⟩) := by
  have h := (write_failure_aborts "Say7" c7Fields c7Vals
    (valsWB_cons (ValWB.prim "hey") valsWB_nil)).2.1 1 9 (by decide)
  exact h

/-- C9: the generated body is deterministic and stateless: on any
non-faulting writer it appends exactly the canonical event sequence of the
instance, independently of anything already in the writer — two invocations
on equal instances append identical event sequences. -/
theorem serialization_deterministic (name : String) (fields : List FieldDecl)
    (vals : List (String × InstVal)) (h : ValsWB vals) (st st' : WriterState)
    (hf : st.failAt = none) (hf' : st'.failAt = none) :
    (write_xml name fields vals st).2.events =
      st.events ++ runEvents name fields vals ∧
    (write_xml name fields vals st').2.events.drop st'.events.length =
      (write_xml name fields vals st).2.events.drop st.events.length := by
  obtain ⟨tn, hn, hw⟩ := write_xml_emits_of_WB name fields h
  have hre := runEvents_of_emits hw
  rw [emits_ok hw st hf, emits_ok hw st' hf', hre]
  exact ⟨rfl, by simp [List.drop_left]⟩

theorem serialization_deterministic_witness :
    (write_xml "Say9" c9Fields c9Vals ⟨[], none, 0⟩).2.events =
      [] ++ runEvents "Say9" c9Fields c9Vals ∧
    (write_xml "Say9" c9Fields c9Vals ⟨[.characters "z"], none, 5⟩).2.events.drop 1 =
      (write_xml "Say9" c9Fields c9Vals ⟨[], none, 0⟩).2.events.drop 0 :=
  serialization_deterministic "Say9" c9Fields c9Vals
    (valsWB_cons (ValWB.prim "ho") valsWB_nil)
    ⟨[], none, 0⟩ ⟨[.characters "z"], none, 5⟩ rfl rfl
